import Mathlib

/-!
Verification of the ClickHouse view-dependency extractor and its Mermaid
renderer (`ch_view_dependencies.py`, `dependencies_to_mermaid.py`).

The Python code is shallowly embedded: strings are Lean `String`s, Python
`dict`s (insertion ordered) are association lists, exceptions become
`Except`, and the external ClickHouse / ANTLR collaborators of the
dependency collector are abstracted as an oracle parameter.
-/

/-! ## Python string primitives (models of `str.strip`, `str.upper`, `str.split`) -/

/-- Characters the Python `str.strip()` (no arguments) removes: ASCII whitespace. -/
def pyIsSpace (c : Char) : Bool :=
  c = ' ' || c = '\t' || c = '\n' || c = '\r' || c = '\x0b' || c = '\x0c'

/-- Model of Python `str.strip()` on character lists. -/
def pyStripChars (cs : List Char) : List Char :=
  ((cs.dropWhile pyIsSpace).reverse.dropWhile pyIsSpace).reverse

/-- Model of Python `str.strip()`. -/
def pyStripStr (s : String) : String :=
  ⟨pyStripChars s.data⟩

/-- Model of Python `str.upper()` for one character (ASCII range). -/
def pyToUpperChar (c : Char) : Char :=
  if 'a' ≤ c ∧ c ≤ 'z' then Char.ofNat (c.toNat - 32) else c

/-- Model of Python `str.upper()`. -/
def pyUpperStr (s : String) : String :=
  ⟨s.data.map pyToUpperChar⟩

/-- Model of Python `name.split(sep)` for a one-character separator:
`pySplit sep cs` cuts `cs` at every occurrence of `sep`. -/
def pySplit (sep : Char) : List Char → List (List Char)
  | [] => [[]]
  | c :: rest =>
    if c = sep then [] :: pySplit sep rest
    else
      match pySplit sep rest with
      | h :: t => (c :: h) :: t
      | [] => [[c]]

/-! ## `ch_view_dependencies.py`: identifier cleaning and normalization -/

/-- Leading quoting marks removed by `_IDENTIFIER_CLEAN_RE`
(alternatives anchored with `^`): backtick, double quote, opening bracket. -/
def isLeadMark (c : Char) : Bool :=
  c = '`' || c = '"' || c = '['

/-- Trailing quoting marks removed by `_IDENTIFIER_CLEAN_RE`
(alternatives anchored with `$`): backtick, double quote, closing bracket. -/
def isTrailMark (c : Char) : Bool :=
  c = '`' || c = '"' || c = ']'

/-- Remove at most one leading quoting mark (the `^`-anchored regex alternatives). -/
def stripLeadMark : List Char → List Char
  | [] => []
  | c :: rest => if isLeadMark c then rest else c :: rest

/-- Remove at most one trailing quoting mark (the `$`-anchored regex alternatives). -/
def stripTrailMark (cs : List Char) : List Char :=
  match cs.reverse with
  | [] => []
  | c :: rest => if isTrailMark c then rest.reverse else cs

/-- Model of Python `s.replace(qq, q)` for a doubled quoting character `q`:
left-to-right, non-overlapping replacement of `[q, q]` by `[q]`. -/
def collapseDoubled (q : Char) : List Char → List Char
  | [] => []
  | [c] => [c]
  | c1 :: c2 :: rest =>
    if c1 = q ∧ c2 = q then q :: collapseDoubled q rest
    else c1 :: collapseDoubled q (c2 :: rest)

/-- Core of `clean_ident` on character lists: strip whitespace, remove one
leading and one trailing quoting mark, then un-double backticks and quotes. -/
def clean_chars (cs : List Char) : List Char :=
  collapseDoubled '"' (collapseDoubled '`'
    (stripTrailMark (stripLeadMark (pyStripChars cs))))

/-- Embedding of `clean_ident` (ch_view_dependencies.py, lines 67-73). -/
def clean_ident (s : String) : String :=
  ⟨clean_chars s.data⟩

/-- Embedding of `split_qualified` (ch_view_dependencies.py, lines 75-84):
split `db.table` into `(some db, table)`; anything with a number of
dot-separated parts other than two is unqualified. Each part is cleaned. -/
def split_qualified (name : String) : Option String × String :=
  let cs := pyStripChars name.data
  match pySplit '.' cs with
  | [a, b] => (some ⟨clean_chars a⟩, ⟨clean_chars b⟩)
  | _ => (none, ⟨clean_chars cs⟩)

/-- Python truthiness of an optional string (`if db:`): present and nonempty. -/
def truthy : Option String → Bool
  | none => false
  | some s => s ≠ ""

/-- Embedding of `normalize_table_name` (ch_view_dependencies.py, lines 86-98). -/
def normalize_table_name (raw : String) (default_db : Option String) : String :=
  let p := split_qualified raw
  if truthy p.1 then p.1.getD "" ++ "." ++ p.2
  else if truthy default_db then default_db.getD "" ++ "." ++ p.2
  else p.2

/-! ## `ch_view_dependencies.py`: the dependency collector `_views_to_json`

The external collaborators (ClickHouse DDL fetch and the ANTLR parse,
`fetch_view_ddl` + `parse_view_tables`) are abstracted as an oracle from a
`(database, name)` pair to either a sorted relation list or the error
string recorded in the error log. -/

/-- A row of `fetch_views`: `(database, name, engine)`. -/
abbrev ViewRow := String × String × String

/-- The fully qualified name `f"{db}.{view_name}"` used as dictionary key. -/
def fqName (v : ViewRow) : String :=
  v.1 ++ "." ++ v.2.1

/-- Embedding of the loop of `_views_to_json` (ch_view_dependencies.py,
lines 346-361): on oracle success record the dependency entry, on failure
record the error entry, and always continue with the remaining views. -/
def views_to_json (oracle : String → String → Except String (List String)) :
    List ViewRow → List (String × List String) × List (String × String)
  | [] => ([], [])
  | v :: rest =>
    let r := views_to_json oracle rest
    match oracle v.1 v.2.1 with
    | Except.ok ts => ((fqName v, ts) :: r.1, r.2)
    | Except.error e => (r.1, (fqName v, e) :: r.2)

/-! ## `dependencies_to_mermaid.py`: options and node-name validation -/

/-- Embedding of the `MermaidOptions` dataclass. -/
structure MermaidOptions where
  direction : String
  indent : String
  dedupe_edges : Bool
  include_isolated_nodes : Bool

/-- The dataclass defaults: `direction="LR"`, `indent="  "`,
`dedupe_edges=True`, `include_isolated_nodes=True`. -/
def defaultOptions : MermaidOptions :=
  ⟨"LR", "  ", true, true⟩

/-- The character class of `_ALLOWED_NODE_RE`: `[A-Za-z0-9_.:\-]`. -/
def allowedChar (c : Char) : Bool :=
  ('A' ≤ c ∧ c ≤ 'Z') || ('a' ≤ c ∧ c ≤ 'z') || ('0' ≤ c ∧ c ≤ '9') ||
    c = '_' || c = '.' || c = ':' || c = '-'

/-- Model of `_ALLOWED_NODE_RE.match(name)` with pattern `^[A-Za-z0-9_.:\-]+$`:
the greedy `+` consumes the maximal allowed prefix, and Python's `$` matches
at the end of the string or just before one final newline character. -/
def reMatchAllowed (s : String) : Bool :=
  let cs := s.data
  let k := (cs.takeWhile allowedChar).length
  decide (1 ≤ k) &&
    (decide (k = cs.length) ||
      (decide (k + 1 = cs.length) && decide (cs.getLast? = some '\n')))

/-- The validation error message of `_validate_node_name`, naming the
offending node (the Python message interpolates `{name!r}`; the model keeps
the name itself). -/
def invalidNameMsg (n : String) : String :=
  "Invalid node name for unquoted Mermaid output: " ++ n

/-- The invalid-direction error message of `_deps_to_mermaid`. -/
def dirErrMsg : String :=
  "options.direction must be one of LR, TB, RL, BT"

/-- The accepted directions `{"LR", "TB", "RL", "BT"}` (line 99). -/
def dirsList : List String :=
  ["LR", "TB", "RL", "BT"]

/-! ## `dependencies_to_mermaid.py`: graph construction -/

/-- All node names in iteration order: for each mapping item, the view key
followed by its dependency entries (the order in which the rendering loop
validates them and adds them to the node set). -/
def allNodeNames (m : List (String × List String)) : List String :=
  m.flatMap (fun p => p.1 :: p.2)

/-- The edge list in input order: one `(dep, view)` pair per occurrence. -/
def edgesOf (m : List (String × List String)) : List (String × String) :=
  m.flatMap (fun p => p.2.map (fun d => (d, p.1)))

/-- The first node name (in validation order) rejected by the regex, if any. -/
def firstBadName (m : List (String × List String)) : Option String :=
  (allNodeNames m).find? (fun n => !reMatchAllowed n)

/-- The dedup loop of `_deps_to_mermaid` (lines 115-122): keep an element
only if it is not in `seen`, and record it in `seen` once kept. -/
def dedupeGo {α : Type} [DecidableEq α] (seen : List α) : List α → List α
  | [] => []
  | e :: rest =>
    if e ∈ seen then dedupeGo seen rest
    else e :: dedupeGo (e :: seen) rest

/-- First-occurrence deduplication, as run with an initially empty `seen` set. -/
def dedupeFirst {α : Type} [DecidableEq α] (l : List α) : List α :=
  dedupeGo [] l

/-- Insert into a `≤`-sorted list of strings (Python's code-point order). -/
def insertSorted (x : String) : List String → List String
  | [] => [x]
  | y :: ys => if x ≤ y then x :: y :: ys else y :: insertSorted x ys

/-- Sorting of strings in Python's lexicographic code-point order. -/
def sortStrings : List String → List String
  | [] => []
  | x :: xs => insertSorted x (sortStrings xs)

/-- Model of Python `sorted(someSet)` where the set was filled from list `l`:
the distinct elements of `l` in ascending order. -/
def pySortedSet (l : List String) : List String :=
  sortStrings (dedupeFirst l)

/-- The edge list actually rendered: deduplicated when `dedupe_edges` is set,
the raw occurrence list otherwise (lines 115-122). -/
def renderedEdgePairs (m : List (String × List String)) (o : MermaidOptions) :
    List (String × String) :=
  if o.dedupe_edges then dedupeFirst (edgesOf m) else edgesOf m

/-- Nodes appearing in some rendered edge (the `connected` set, lines 135-138). -/
def connectedNodes (es : List (String × String)) : List String :=
  es.flatMap (fun e => [e.1, e.2])

/-- `sorted(nodes - connected)`: the isolated nodes in ascending order. -/
def isolatedSorted (m : List (String × List String)) (o : MermaidOptions) :
    List String :=
  pySortedSet ((allNodeNames m).filter
    (fun n => !(connectedNodes (renderedEdgePairs m o)).contains n))

/-- One rendered edge line (line 129): `{indent}{src} -.-> {dst}`. -/
def edgeLine (o : MermaidOptions) (e : String × String) : String :=
  o.indent ++ e.1 ++ " -.-> " ++ e.2

/-- One rendered bare node line (lines 132 and 142): `{indent}{n}`. -/
def nodeLine (o : MermaidOptions) (n : String) : String :=
  o.indent ++ n

/-- The list `lines` built by `_deps_to_mermaid` (lines 124-142): the header,
then either the edge lines or (with no edges and isolated nodes enabled) all
nodes sorted, then the isolated nodes when edges exist and they are enabled. -/
def mermaidLines (m : List (String × List String)) (o : MermaidOptions) :
    List String :=
  let dir := pyUpperStr (pyStripStr o.direction)
  let edges := renderedEdgePairs m o
  ("graph " ++ dir) ::
    ((if edges.isEmpty then
        (if o.include_isolated_nodes then
          (pySortedSet (allNodeNames m)).map (nodeLine o)
        else [])
      else edges.map (edgeLine o))
      ++ (if o.include_isolated_nodes && !edges.isEmpty then
            (isolatedSorted m o).map (nodeLine o)
          else []))

/-- Model of `"\n".join(lines)` on character lists. -/
def nlJoin : List (List Char) → List Char
  | [] => []
  | [l] => l
  | l :: ls => l ++ '\n' :: nlJoin ls

/-- `"\n".join(lines)` on strings. -/
def joinLines (lines : List String) : String :=
  ⟨nlJoin (lines.map String.data)⟩

/-- Embedding of `_deps_to_mermaid` (dependencies_to_mermaid.py, lines
93-144): reject a bad direction, then reject the first invalid node name,
otherwise return the joined lines with the final newline appended. -/
def deps_to_mermaid (m : List (String × List String)) (o : MermaidOptions) :
    Except String String :=
  if pyUpperStr (pyStripStr o.direction) ∈ dirsList then
    match firstBadName m with
    | some bad => Except.error (invalidNameMsg bad)
    | none => Except.ok (joinLines (mermaidLines m o) ++ "\n")
  else Except.error dirErrMsg

/-- Embedding of `json_to_mermaid` (lines 30-71) on inputs that already have
the validated shape `dict[str, list[str]]` (the dynamic-type checks of the
Python function are enforced here by the Lean type). -/
def json_to_mermaid (m : List (String × List String)) (o : MermaidOptions) :
    Except String String :=
  deps_to_mermaid m o

/-! ## Auxiliary definitions for the statements of the theorems -/

/-- Index of the first occurrence of `e` in a list (length of the list when
`e` is absent); used to state the first-seen ordering of deduplication. -/
def firstIdx {α : Type} [DecidableEq α] (e : α) : List α → Nat
  | [] => 0
  | x :: xs => if x = e then 0 else firstIdx e xs + 1

/-- Number of occurrences of `e` in a list; used to state edge multiplicity. -/
def countOcc {α : Type} [DecidableEq α] (e : α) : List α → Nat
  | [] => 0
  | x :: xs => (if x = e then 1 else 0) + countOcc e xs

/-- A plain identifier character: ASCII letter, digit or underscore. -/
def plainChar (c : Char) : Bool :=
  ('A' ≤ c ∧ c ≤ 'Z') || ('a' ≤ c ∧ c ≤ 'z') || ('0' ≤ c ∧ c ≤ '9') || c = '_'

/-- A canonical bare identifier: nonempty and made of plain characters only
(no separators, no quoting marks, no surrounding whitespace). -/
def plainIdent (s : String) : Bool :=
  !s.data.isEmpty && s.data.all plainChar

/-- A concrete oracle for exercising `views_to_json`: the view named `bad`
fails with message `boom`, every other view parses to the single relation
`t`. -/
def c5oracle : String → String → Except String (List String) :=
  fun _ n => if n = "bad" then Except.error "boom" else Except.ok ["t"]

/-- A concrete batch of two views, the first of which fails. -/
def c5views : List ViewRow :=
  [("d", "bad", "View"), ("d", "ok2", "View")]

/-! ## Concrete scenario theorems -/

/-- C9: for the empty dependency mapping with default options,
`json_to_mermaid` succeeds and returns exactly `"graph LR\n"` — the header
line only, with no node or edge lines. -/
theorem c9_empty_mapping :
    json_to_mermaid [] defaultOptions = Except.ok "graph LR\n" := rfl

/-- C1, counterexample: for `{"view_dependencies": {"a": ["b"]}}` with
default options the code returns `"graph LR\n  b -.-> a\n"`, a string
containing no colon at all — so it contains neither the two claimed
`classDef` style lines nor the claimed node declaration lines
`  a:::chView` and `  b:::chView`. -/
theorem c1_counterexample :
    json_to_mermaid [("a", ["b"])] defaultOptions = Except.ok "graph LR\n  b -.-> a\n"
    ∧ ':' ∉ "graph LR\n  b -.-> a\n".data :=
  ⟨rfl, by decide⟩

/-- C1, amended: for `{"view_dependencies": {"a": ["b"]}}` with default
options, `json_to_mermaid` returns exactly `"graph LR\n  b -.-> a\n"`:
the header line followed by the single edge line, with no `classDef`
lines and no per-node declaration lines (the renderer never classifies
nodes and emits no node declaration lines when an edge exists). -/
theorem c1_amended_output :
    json_to_mermaid [("a", ["b"])] defaultOptions = Except.ok "graph LR\n  b -.-> a\n"
    ∧ mermaidLines [("a", ["b"])] defaultOptions = ["graph LR", "  b -.-> a"] :=
  ⟨rfl, rfl⟩

/-- C2, counterexample: the node name `"a\n"` contains a newline, a
character outside the allowed class, yet `json_to_mermaid` raises no
validation error and produces output for it: Python's `$` anchor also
matches just before one trailing newline. -/
theorem c2_counterexample :
    json_to_mermaid [("a\n", ["b"])] defaultOptions
        = Except.ok "graph LR\n  b -.-> a\n\n"
    ∧ '\n' ∈ "a\n".data ∧ allowedChar '\n' = false :=
  ⟨rfl, by decide, rfl⟩

/-- C3, counterexample: the direction string `"lr"` is not in
`{LR, TB, RL, BT}`, yet rendering succeeds (the code strips and
uppercases the direction before the membership check), contradicting the
claim that every direction outside the set raises an error. -/
theorem c3_counterexample :
    json_to_mermaid [("a", ["b"])] ⟨"lr", "  ", true, true⟩
        = Except.ok "graph LR\n  b -.-> a\n"
    ∧ "lr" ∉ ["LR", "TB", "RL", "BT"] :=
  ⟨rfl, by decide⟩

/-- C6, counterexample: `normalize_table_name` is not idempotent: with
default schema `d`, the raw name `a.b.c` (two separators, hence treated
as unqualified) normalizes to `d.a.b.c`, and normalizing that output
again gives `d.d.a.b.c ≠ d.a.b.c`. -/
theorem c6_counterexample :
    normalize_table_name "a.b.c" (some "d") = "d.a.b.c"
    ∧ normalize_table_name (normalize_table_name "a.b.c" (some "d")) (some "d")
        = "d.d.a.b.c"
    ∧ "d.d.a.b.c" ≠ "d.a.b.c" :=
  ⟨rfl, rfl, by decide⟩

/-- C8, counterexample: the input `{"a\n": ["b"]}` passes validation (the
`$` anchor accepts one trailing newline in a node name), but the returned
string ends in `"\n\n"` — two trailing line terminators, not one. -/
theorem c8_counterexample :
    json_to_mermaid [("a\n", ["b"])] defaultOptions
        = Except.ok "graph LR\n  b -.-> a\n\n"
    ∧ "graph LR\n  b -.-> a\n\n".data.getLast? = some '\n'
    ∧ "graph LR\n  b -.-> a\n\n".data.dropLast.getLast? = some '\n' :=
  ⟨rfl, by decide, by decide⟩

/-! ## Deduplication: membership, multiplicity and first-seen order -/

theorem mem_dedupeGo {α : Type} [DecidableEq α] (l : List α) :
    ∀ (seen : List α) (e : α), e ∈ dedupeGo seen l ↔ e ∈ l ∧ e ∉ seen := by
  induction l with
  | nil => intro seen e; simp [dedupeGo]
  | cons x xs ih =>
    intro seen e
    by_cases hx : x ∈ seen
    · rw [dedupeGo, if_pos hx, ih]
      constructor
      · rintro ⟨h1, h2⟩; exact ⟨List.mem_cons_of_mem _ h1, h2⟩
      · rintro ⟨h1, h2⟩
        rcases List.mem_cons.mp h1 with rfl | h1
        · exact absurd hx h2
        · exact ⟨h1, h2⟩
    · rw [dedupeGo, if_neg hx]
      constructor
      · intro h
        rcases List.mem_cons.mp h with rfl | h
        · exact ⟨List.mem_cons_self e xs, hx⟩
        · have hm := (ih (x :: seen) e).mp h
          exact ⟨List.mem_cons_of_mem _ hm.1,
            fun hc => hm.2 (List.mem_cons_of_mem _ hc)⟩
      · rintro ⟨h1, h2⟩
        rcases List.mem_cons.mp h1 with rfl | h1
        · exact List.mem_cons_self e _
        · by_cases hex : e = x
          · exact hex ▸ List.mem_cons_self x _
          · refine List.mem_cons_of_mem _ ((ih (x :: seen) e).mpr ⟨h1, ?_⟩)
            intro hc
            exact (List.mem_cons.mp hc).elim hex h2

theorem countOcc_dedupeGo {α : Type} [DecidableEq α] (l : List α) :
    ∀ (seen : List α) (e : α),
      countOcc e (dedupeGo seen l) = if e ∈ l ∧ e ∉ seen then 1 else 0 := by
  induction l with
  | nil => intro seen e; simp [dedupeGo, countOcc]
  | cons x xs ih =>
    intro seen e
    by_cases hx : x ∈ seen
    · rw [dedupeGo, if_pos hx, ih]
      have heq : (e ∈ xs ∧ e ∉ seen) ↔ (e ∈ x :: xs ∧ e ∉ seen) := by
        constructor
        · rintro ⟨h1, h2⟩; exact ⟨List.mem_cons_of_mem _ h1, h2⟩
        · rintro ⟨h1, h2⟩
          rcases List.mem_cons.mp h1 with rfl | h1
          · exact absurd hx h2
          · exact ⟨h1, h2⟩
      exact if_congr heq rfl rfl
    · rw [dedupeGo, if_neg hx, countOcc, ih]
      by_cases hex : e = x
      · subst hex
        have h1 : ¬ (e ∈ xs ∧ e ∉ e :: seen) := by
          rintro ⟨-, h2⟩; exact h2 (List.mem_cons_self e seen)
        have h2 : e ∈ e :: xs ∧ e ∉ seen := ⟨List.mem_cons_self e xs, hx⟩
        rw [if_pos rfl, if_neg h1, if_pos h2]
      · have heq : (e ∈ xs ∧ e ∉ x :: seen) ↔ (e ∈ x :: xs ∧ e ∉ seen) := by
          constructor
          · rintro ⟨h1, h2⟩
            exact ⟨List.mem_cons_of_mem _ h1,
              fun hc => h2 (List.mem_cons_of_mem _ hc)⟩
          · rintro ⟨h1, h2⟩
            exact ⟨(List.mem_cons.mp h1).resolve_left hex,
              fun hc => (List.mem_cons.mp hc).elim hex h2⟩
        rw [if_neg (fun h => hex h.symm), if_congr heq rfl rfl, Nat.zero_add]

theorem firstIdx_cons_self {α : Type} [DecidableEq α] (e : α) (l : List α) :
    firstIdx e (e :: l) = 0 := by
  simp [firstIdx]

theorem firstIdx_cons_ne {α : Type} [DecidableEq α] {x e : α} (h : x ≠ e)
    (l : List α) : firstIdx e (x :: l) = firstIdx e l + 1 := by
  simp [firstIdx, h]

theorem pairwise_firstIdx_dedupeGo {α : Type} [DecidableEq α] (l : List α) :
    ∀ seen : List α,
      (dedupeGo seen l).Pairwise (fun a b => firstIdx a l < firstIdx b l) := by
  induction l with
  | nil => intro seen; simp [dedupeGo]
  | cons x xs ih =>
    intro seen
    by_cases hx : x ∈ seen
    · rw [dedupeGo, if_pos hx]
      refine (ih seen).imp_of_mem ?_
      intro a b ha hb hab
      have hane : a ≠ x := fun h =>
        ((mem_dedupeGo xs seen a).mp ha).2 (h ▸ hx)
      have hbne : b ≠ x := fun h =>
        ((mem_dedupeGo xs seen b).mp hb).2 (h ▸ hx)
      rw [firstIdx_cons_ne (Ne.symm hane), firstIdx_cons_ne (Ne.symm hbne)]
      omega
    · rw [dedupeGo, if_neg hx]
      refine List.Pairwise.cons ?_ ?_
      · intro b hb
        have hbne : b ≠ x := fun h =>
          ((mem_dedupeGo xs (x :: seen) b).mp hb).2 (h ▸ List.mem_cons_self x seen)
        rw [firstIdx_cons_self, firstIdx_cons_ne (Ne.symm hbne)]
        omega
      · refine (ih (x :: seen)).imp_of_mem ?_
        intro a b ha hb hab
        have hane : a ≠ x := fun h =>
          ((mem_dedupeGo xs (x :: seen) a).mp ha).2 (h ▸ List.mem_cons_self x seen)
        have hbne : b ≠ x := fun h =>
          ((mem_dedupeGo xs (x :: seen) b).mp hb).2 (h ▸ List.mem_cons_self x seen)
        rw [firstIdx_cons_ne (Ne.symm hane), firstIdx_cons_ne (Ne.symm hbne)]
        omega

/-- C4: with `dedupe_edges=true` the rendered edge list contains each
distinct `(src, dst)` pair of the input exactly once, ordered by first
occurrence in the input; with `dedupe_edges=false` it is exactly the
input-order occurrence list (one edge line per occurrence, duplicates
included). -/
theorem c4_edge_dedup (m : List (String × List String)) (o : MermaidOptions) :
    (o.dedupe_edges = true →
      (∀ e : String × String,
          countOcc e (renderedEdgePairs m o) = if e ∈ edgesOf m then 1 else 0)
      ∧ (renderedEdgePairs m o).Pairwise
          (fun a b => firstIdx a (edgesOf m) < firstIdx b (edgesOf m)))
    ∧ (o.dedupe_edges = false → renderedEdgePairs m o = edgesOf m) := by
  constructor
  · intro hd
    constructor
    · intro e
      rw [renderedEdgePairs, hd]
      simp only [if_true]
      rw [dedupeFirst, countOcc_dedupeGo]
      simp
    · rw [renderedEdgePairs, hd]
      simp only [if_true]
      exact pairwise_firstIdx_dedupeGo (edgesOf m) []
  · intro hd
    rw [renderedEdgePairs, hd]
    simp

/-- C4, witness: for `{"a": ["b","b","c","b"]}` with defaults the edge
`(b, a)` is rendered exactly once, and with `dedupe_edges=false` the edge
list of `{"a": ["b","b"]}` keeps both occurrences. -/
theorem c4_witness :
    (countOcc ("b", "a") (renderedEdgePairs [("a", ["b", "b", "c", "b"])] defaultOptions)
        = if ("b", "a") ∈ edgesOf [("a", ["b", "b", "c", "b"])] then 1 else 0)
    ∧ renderedEdgePairs [("a", ["b", "b"])] ⟨"LR", "  ", false, true⟩
        = edgesOf [("a", ["b", "b"])] :=
  ⟨((c4_edge_dedup _ _).1 rfl).1 ("b", "a"), (c4_edge_dedup _ _).2 rfl⟩

/-! ## The dependency collector: partial-failure isolation -/

theorem views_to_json_err_mem (oracle : String → String → Except String (List String))
    (views : List ViewRow) (v : ViewRow) (hv : v ∈ views) (e : String)
    (herr : oracle v.1 v.2.1 = Except.error e) :
    (fqName v, e) ∈ (views_to_json oracle views).2 := by
  induction views with
  | nil => cases hv
  | cons w ws ih =>
    rcases List.mem_cons.mp hv with rfl | hv
    · rw [views_to_json, herr]
      exact List.mem_cons_self _ _
    · rw [views_to_json]
      rcases hw : oracle w.1 w.2.1 with e2 | ts
      · exact List.mem_cons_of_mem _ (ih hv)
      · exact ih hv

theorem views_to_json_ok_mem (oracle : String → String → Except String (List String))
    (views : List ViewRow) (v : ViewRow) (hv : v ∈ views) (ts : List String)
    (hok : oracle v.1 v.2.1 = Except.ok ts) :
    (fqName v, ts) ∈ (views_to_json oracle views).1 := by
  induction views with
  | nil => cases hv
  | cons w ws ih =>
    rcases List.mem_cons.mp hv with rfl | hv
    · rw [views_to_json, hok]
      exact List.mem_cons_self _ _
    · rw [views_to_json]
      rcases hw : oracle w.1 w.2.1 with e2 | ts2
      · exact ih hv
      · exact List.mem_cons_of_mem _ (ih hv)

theorem views_to_json_keys (oracle : String → String → Except String (List String))
    (views : List ViewRow) (k : String) :
    k ∈ (views_to_json oracle views).1.map Prod.fst ↔
      ∃ v ∈ views, fqName v = k ∧ ∃ ts, oracle v.1 v.2.1 = Except.ok ts := by
  induction views with
  | nil => simp [views_to_json]
  | cons w ws ih =>
    rw [views_to_json]
    rcases hw : oracle w.1 w.2.1 with e | ts
    · simp only [List.mem_cons]
      rw [ih]
      constructor
      · rintro ⟨v, hv, hk, hts⟩; exact ⟨v, Or.inr hv, hk, hts⟩
      · rintro ⟨v, rfl | hv, hk, hts⟩
        · rw [hw] at hts; cases hts.choose_spec
        · exact ⟨v, hv, hk, hts⟩
    · simp only [List.map_cons, List.mem_cons]
      rw [ih]
      constructor
      · rintro (rfl | ⟨v, hv, hk, hts⟩)
        · exact ⟨w, Or.inl rfl, rfl, ts, hw⟩
        · exact ⟨v, Or.inr hv, hk, hts⟩
      · rintro ⟨v, rfl | hv, hk, hts⟩
        · exact Or.inl hk.symm
        · exact Or.inr ⟨v, hv, hk, hts⟩

/-- C5: for every batch of views (with pairwise distinct fully-qualified
names), a view on which the DDL-fetch/parse oracle fails gets an entry in
the error log and no entry in the dependency mapping, while every view on
which the oracle succeeds — before or after a failure — still gets its
dependency entry: one bad view never aborts the batch, and no view appears
in both outputs from the same failure. -/
theorem c5_partial_failure (oracle : String → String → Except String (List String))
    (views : List ViewRow) (hnd : (views.map fqName).Nodup) :
    (∀ v ∈ views, ∀ e, oracle v.1 v.2.1 = Except.error e →
        (fqName v, e) ∈ (views_to_json oracle views).2
        ∧ fqName v ∉ (views_to_json oracle views).1.map Prod.fst)
    ∧ (∀ v ∈ views, ∀ ts, oracle v.1 v.2.1 = Except.ok ts →
        (fqName v, ts) ∈ (views_to_json oracle views).1) := by
  constructor
  · intro v hv e herr
    refine ⟨views_to_json_err_mem oracle views v hv e herr, ?_⟩
    intro hk
    obtain ⟨w, hw, hfq, ts, hts⟩ := (views_to_json_keys oracle views (fqName v)).mp hk
    have hwv : w = v := List.inj_on_of_nodup_map hnd hw hv hfq
    rw [hwv, herr] at hts
    cases hts
  · intro v hv ts hok
    exact views_to_json_ok_mem oracle views v hv ts hok

/-- C5, witness: in the two-view batch `c5views` under `c5oracle` the
failing view `d.bad` lands in the error log only, and the later view
`d.ok2` is still processed into the dependency mapping. -/
theorem c5_witness :
    (("d.bad", "boom") ∈ (views_to_json c5oracle c5views).2
      ∧ "d.bad" ∉ (views_to_json c5oracle c5views).1.map Prod.fst)
    ∧ ("d.ok2", ["t"]) ∈ (views_to_json c5oracle c5views).1 := by
  have h := c5_partial_failure c5oracle c5views (by decide)
  refine ⟨?_, ?_⟩
  · have := h.1 ("d", "bad", "View") (by decide) "boom" rfl
    exact this
  · exact h.2 ("d", "ok2", "View") (by decide) ["t"] rfl

/-! ## Node-name validation: what `^[A-Za-z0-9_.:\-]+$` accepts -/

theorem takeWhile_length_eq_iff (p : Char → Bool) :
    ∀ l : List Char, ((l.takeWhile p).length = l.length ↔ ∀ c ∈ l, p c = true) := by
  intro l
  induction l with
  | nil => simp
  | cons c rest ih =>
    rw [List.takeWhile_cons]
    by_cases hc : p c = true
    · rw [if_pos hc]
      simp only [List.length_cons, Nat.add_right_cancel_iff, ih]
      constructor
      · intro h a ha
        rcases List.mem_cons.mp ha with rfl | ha
        · exact hc
        · exact h a ha
      · intro h a ha; exact h a (List.mem_cons_of_mem _ ha)
    · rw [if_neg hc]
      simp only [List.length_nil]
      constructor
      · intro h; exact absurd h.symm (by simp)
      · intro h; exact absurd (h c (List.mem_cons_self c rest)) hc

theorem takeWhile_eq_take_len (p : Char → Bool) :
    ∀ l : List Char, l.takeWhile p = l.take (l.takeWhile p).length := by
  intro l
  induction l with
  | nil => simp
  | cons c rest ih =>
    rw [List.takeWhile_cons]
    by_cases hc : p c = true
    · rw [if_pos hc, List.length_cons, List.take_succ_cons, ← ih]
    · rw [if_neg hc]; rfl

theorem takeWhile_append_all (p : Char → Bool) :
    ∀ (l r : List Char), (∀ c ∈ l, p c = true) →
      (l ++ r).takeWhile p = l ++ r.takeWhile p := by
  intro l r h
  induction l with
  | nil => simp
  | cons c rest ih =>
    rw [List.cons_append, List.takeWhile_cons,
      if_pos (h c (List.mem_cons_self c rest)),
      ih (fun a ha => h a (List.mem_cons_of_mem _ ha))]
    rfl

/-- What the validation regex accepts: a nonempty run of allowed characters,
optionally followed by one final newline (the Python `$` quirk). -/
theorem reMatchAllowed_iff (n : String) :
    reMatchAllowed n = true ↔
      (n.data ≠ [] ∧ ∀ c ∈ n.data, allowedChar c = true)
      ∨ (n.data.dropLast ≠ [] ∧ (∀ c ∈ n.data.dropLast, allowedChar c = true)
          ∧ n.data.getLast? = some '\n') := by
  rcases n with ⟨cs⟩
  show reMatchAllowed ⟨cs⟩ = true ↔
      (cs ≠ [] ∧ ∀ c ∈ cs, allowedChar c = true)
      ∨ (cs.dropLast ≠ [] ∧ (∀ c ∈ cs.dropLast, allowedChar c = true)
          ∧ cs.getLast? = some '\n')
  have hred : reMatchAllowed ⟨cs⟩ = true ↔
      (1 ≤ (cs.takeWhile allowedChar).length ∧
        ((cs.takeWhile allowedChar).length = cs.length ∨
          ((cs.takeWhile allowedChar).length + 1 = cs.length
            ∧ cs.getLast? = some '\n'))) := by
    simp [reMatchAllowed, Bool.and_eq_true, Bool.or_eq_true, decide_eq_true_eq]
  rw [hred]
  constructor
  · rintro ⟨hk, heq | ⟨heq, hlast⟩⟩
    · left
      refine ⟨?_, (takeWhile_length_eq_iff allowedChar cs).mp heq⟩
      intro hnil
      rw [hnil] at hk
      simp [List.takeWhile] at hk
    · right
      have hdl : cs.dropLast = cs.takeWhile allowedChar := by
        rw [takeWhile_eq_take_len allowedChar cs, List.dropLast_eq_take]
        congr 1
        omega
      refine ⟨?_, ?_, hlast⟩
      · rw [hdl]
        intro hnil
        rw [hnil] at hk
        simp at hk
      · intro c hc
        rw [hdl] at hc
        exact List.mem_takeWhile_imp hc
  · rintro (⟨hne, hall⟩ | ⟨hdne, hdall, hlast⟩)
    · have heq := (takeWhile_length_eq_iff allowedChar cs).mpr hall
      have hlen : 1 ≤ cs.length := by
        rcases cs with _ | ⟨c, rest⟩
        · exact absurd rfl hne
        · simp
      exact ⟨by omega, Or.inl heq⟩
    · have hcne : cs ≠ [] := by
        intro hnil
        rw [hnil] at hlast
        cases hlast
      have hcs : cs.dropLast ++ ['\n'] = cs := by
        have h1 := List.dropLast_append_getLast hcne
        have h2 : cs.getLast hcne = '\n' := by
          have h3 := List.getLast?_eq_getLast cs hcne
          rw [h3] at hlast
          exact Option.some.inj hlast
        rw [h2] at h1
        exact h1
      have htw : cs.takeWhile allowedChar = cs.dropLast := by
        conv_lhs => rw [← hcs]
        rw [takeWhile_append_all allowedChar _ _ hdall, List.takeWhile_cons,
          if_neg (by decide : ¬ allowedChar '\n' = true)]
        simp
      have hlen : cs.length = cs.dropLast.length + 1 := by
        conv_lhs => rw [← hcs]
        simp
      have hdlen : 1 ≤ cs.dropLast.length := by
        rcases hd : cs.dropLast with _ | ⟨c, rest⟩
        · exact absurd hd hdne
        · simp
      refine ⟨by rw [htw]; omega, Or.inr ⟨by rw [htw]; omega, hlast⟩⟩

/-- C2, amended: validation accepts exactly the nonempty strings of allowed
characters (letters, digits, underscore, period, colon, hyphen), plus such
strings followed by one final newline (accepted because Python's `$` anchor
also matches before a trailing newline); every other name — including the
empty name — makes `json_to_mermaid` fail, naming the first offending node,
and on failure no output string is produced. -/
theorem c2_name_validation (m : List (String × List String)) :
    ((json_to_mermaid m defaultOptions).isOk = (allNodeNames m).all reMatchAllowed)
    ∧ (∀ b, firstBadName m = some b →
        json_to_mermaid m defaultOptions = Except.error (invalidNameMsg b))
    ∧ (∀ n : String, reMatchAllowed n = true ↔
        (n.data ≠ [] ∧ ∀ c ∈ n.data, allowedChar c = true)
        ∨ (n.data.dropLast ≠ [] ∧ (∀ c ∈ n.data.dropLast, allowedChar c = true)
            ∧ n.data.getLast? = some '\n')) := by
  refine ⟨?_, ?_, reMatchAllowed_iff⟩
  · unfold json_to_mermaid deps_to_mermaid
    rw [if_pos (by decide : pyUpperStr (pyStripStr defaultOptions.direction) ∈ dirsList)]
    rcases h : firstBadName m with _ | b
    · have hall : (allNodeNames m).all reMatchAllowed = true := by
        rw [List.all_eq_true]
        intro n hn
        have hfind := List.find?_eq_none.mp h n hn
        simpa using hfind
      rw [hall]
      rfl
    · have hb := List.find?_some h
      have hmem := List.mem_of_find?_eq_some h
      have hfalse : (allNodeNames m).all reMatchAllowed = false := by
        rcases hall : (allNodeNames m).all reMatchAllowed with _ | _
        · rfl
        · exfalso
          have htrue := List.all_eq_true.mp hall b hmem
          rw [htrue] at hb
          simp at hb
      rw [hfalse]
      rfl
  · intro b hb
    unfold json_to_mermaid deps_to_mermaid
    rw [if_pos (by decide : pyUpperStr (pyStripStr defaultOptions.direction) ∈ dirsList),
      hb]

/-- C2, witness: for the mapping with key `"bad name"` the render fails and
the error names `"bad name"`; the success flag agrees with the validation
predicate over all node names. -/
theorem c2_witness :
    ((json_to_mermaid [("bad name", ["b"])] defaultOptions).isOk
        = (allNodeNames [("bad name", ["b"])]).all reMatchAllowed)
    ∧ json_to_mermaid [("bad name", ["b"])] defaultOptions
        = Except.error (invalidNameMsg "bad name") :=
  ⟨(c2_name_validation _).1, (c2_name_validation _).2.1 "bad name" (by decide)⟩

/-! ## Direction handling and the output header -/

theorem string_eq_of_data (a b : String) (h : a.data = b.data) : a = b := by
  cases a
  cases b
  cases h
  rfl

theorem deps_output_shape (m : List (String × List String)) (o : MermaidOptions)
    (hdir : pyUpperStr (pyStripStr o.direction) ∈ dirsList)
    (hnames : firstBadName m = none) :
    json_to_mermaid m o = Except.ok (joinLines (mermaidLines m o) ++ "\n") := by
  unfold json_to_mermaid deps_to_mermaid
  rw [if_pos hdir, hnames]

theorem joinLines_cons_nl (h : String) (t : List String) :
    ∃ rest : String, joinLines (h :: t) ++ "\n" = h ++ "\n" ++ rest := by
  cases t with
  | nil =>
    refine ⟨"", string_eq_of_data _ _ ?_⟩
    show (joinLines [h]).data ++ "\n".data = (h ++ "\n" ++ "").data
    rw [String.data_append, String.data_append]
    show nlJoin [h.data] ++ ['\n'] = h.data ++ ['\n'] ++ ("" : String).data
    simp [nlJoin]
  | cons h2 t2 =>
    refine ⟨joinLines (h2 :: t2) ++ "\n", string_eq_of_data _ _ ?_⟩
    rw [String.data_append, String.data_append, String.data_append,
      String.data_append]
    show nlJoin ((h :: h2 :: t2).map String.data) ++ ['\n']
        = h.data ++ ['\n'] ++ ((joinLines (h2 :: t2)).data ++ ['\n'])
    show (h.data ++ '\n' :: nlJoin ((h2 :: t2).map String.data)) ++ ['\n']
        = h.data ++ ['\n'] ++ (nlJoin ((h2 :: t2).map String.data) ++ ['\n'])
    simp

/-- C3, amended: the direction option is first stripped of surrounding
whitespace and uppercased; rendering fails with the invalid-direction error
exactly when that normalized value is outside `{LR, TB, RL, BT}`. Any
successful output starts with the line `graph <normalized direction>`, and
for a direction literally in the set the normalization is the identity, so
the header is `graph <value>`. -/
theorem c3_direction (o : MermaidOptions) (m : List (String × List String))
    (hnames : (allNodeNames m).all reMatchAllowed = true) :
    ((json_to_mermaid m o).isOk
        = decide (pyUpperStr (pyStripStr o.direction) ∈ dirsList))
    ∧ (pyUpperStr (pyStripStr o.direction) ∉ dirsList →
        json_to_mermaid m o = Except.error dirErrMsg)
    ∧ (∀ s, json_to_mermaid m o = Except.ok s →
        ∃ rest, s = "graph " ++ pyUpperStr (pyStripStr o.direction) ++ "\n" ++ rest)
    ∧ (o.direction ∈ dirsList → pyUpperStr (pyStripStr o.direction) = o.direction) := by
  have hfb : firstBadName m = none := by
    rw [firstBadName, List.find?_eq_none]
    intro n hn
    have hsat := List.all_eq_true.mp hnames n hn
    simp [hsat]
  refine ⟨?_, ?_, ?_, ?_⟩
  · by_cases hdir : pyUpperStr (pyStripStr o.direction) ∈ dirsList
    · rw [deps_output_shape m o hdir hfb, decide_eq_true hdir]
      rfl
    · unfold json_to_mermaid deps_to_mermaid
      rw [if_neg hdir, decide_eq_false hdir]
      rfl
  · intro hdir
    unfold json_to_mermaid deps_to_mermaid
    rw [if_neg hdir]
  · intro s hs
    by_cases hdir : pyUpperStr (pyStripStr o.direction) ∈ dirsList
    · rw [deps_output_shape m o hdir hfb] at hs
      have hs2 : s = joinLines (mermaidLines m o) ++ "\n" := (Except.ok.inj hs).symm
      obtain ⟨tl, htl⟩ :
          ∃ tl, mermaidLines m o
            = ("graph " ++ pyUpperStr (pyStripStr o.direction)) :: tl := ⟨_, rfl⟩
      rw [htl] at hs2
      obtain ⟨rest, hrest⟩ :=
        joinLines_cons_nl ("graph " ++ pyUpperStr (pyStripStr o.direction)) tl
      exact ⟨rest, hs2.trans hrest⟩
    · unfold json_to_mermaid deps_to_mermaid at hs
      rw [if_neg hdir] at hs
      cases hs
  · intro hd
    simp only [dirsList, List.mem_cons, List.not_mem_nil, or_false] at hd
    rcases hd with h | h | h | h <;> rw [h] <;> decide

/-- C3, witness: with direction `"lr"` (not in the set) and valid node
names, the success flag matches the normalized-direction membership test
(the render succeeds because `"lr"` strips/uppercases to `"LR"`). -/
theorem c3_witness :
    (json_to_mermaid [("a", ["b"])] ⟨"lr", "  ", true, true⟩).isOk
      = decide (pyUpperStr (pyStripStr "lr") ∈ dirsList) :=
  (c3_direction ⟨"lr", "  ", true, true⟩ [("a", ["b"])] (by decide)).1

/-! ## Sorting and isolated nodes -/

theorem mem_insertSorted (x a : String) :
    ∀ l, a ∈ insertSorted x l ↔ a = x ∨ a ∈ l := by
  intro l
  induction l with
  | nil => simp [insertSorted]
  | cons y ys ih =>
    rw [insertSorted]
    by_cases h : x ≤ y
    · rw [if_pos h]
      simp [List.mem_cons]
    · rw [if_neg h]
      simp only [List.mem_cons, ih]
      tauto

theorem pairwise_insertSorted (x : String) :
    ∀ l, l.Pairwise (fun a b => a ≤ b) →
      (insertSorted x l).Pairwise (fun a b => a ≤ b) := by
  intro l
  induction l with
  | nil => intro h; simp [insertSorted]
  | cons y ys ih =>
    intro h
    rw [insertSorted]
    by_cases hx : x ≤ y
    · rw [if_pos hx]
      refine List.Pairwise.cons ?_ h
      intro b hb
      rcases List.mem_cons.mp hb with rfl | hb
      · exact hx
      · exact le_trans hx (List.rel_of_pairwise_cons h hb)
    · rw [if_neg hx]
      refine List.Pairwise.cons ?_ (ih (List.Pairwise.of_cons h))
      intro b hb
      rcases (mem_insertSorted x b ys).mp hb with rfl | hb
      · exact le_of_not_le hx
      · exact List.rel_of_pairwise_cons h hb

theorem pairwise_sortStrings :
    ∀ l, (sortStrings l).Pairwise (fun a b => a ≤ b) := by
  intro l
  induction l with
  | nil => simp [sortStrings]
  | cons x xs ih => exact pairwise_insertSorted x (sortStrings xs) ih

theorem mem_sortStrings (a : String) : ∀ l, a ∈ sortStrings l ↔ a ∈ l := by
  intro l
  induction l with
  | nil => simp [sortStrings]
  | cons x xs ih =>
    rw [sortStrings, mem_insertSorted, ih, List.mem_cons]

theorem mem_pySortedSet (a : String) (l : List String) :
    a ∈ pySortedSet l ↔ a ∈ l := by
  rw [pySortedSet, mem_sortStrings, dedupeFirst, mem_dedupeGo]
  simp

theorem dedupeFirst_eq_nil_iff {α : Type} [DecidableEq α] (l : List α) :
    dedupeFirst l = [] ↔ l = [] := by
  cases l with
  | nil => simp [dedupeFirst, dedupeGo]
  | cons x xs => simp [dedupeFirst, dedupeGo]

theorem renderedEdgePairs_ne_nil (m : List (String × List String))
    (o : MermaidOptions) (he : edgesOf m ≠ []) : renderedEdgePairs m o ≠ [] := by
  rw [renderedEdgePairs]
  by_cases hd : o.dedupe_edges = true
  · rw [hd, if_pos rfl]
    rw [Ne, dedupeFirst_eq_nil_iff]
    exact he
  · rw [if_neg hd]
    exact he

/-- C7: when the input has at least one edge, enabling
`include_isolated_nodes` appends one bare line per isolated node — the
nodes in no rendered edge — sorted in ascending order, after all edge
lines; disabling it renders the header and the edge lines only, with no
bare node line. -/
theorem c7_isolated_nodes (m : List (String × List String)) (o : MermaidOptions)
    (he : edgesOf m ≠ []) :
    (o.include_isolated_nodes = true →
        (mermaidLines m o
          = ("graph " ++ pyUpperStr (pyStripStr o.direction))
              :: ((renderedEdgePairs m o).map (edgeLine o)
                  ++ (isolatedSorted m o).map (nodeLine o)))
        ∧ (isolatedSorted m o).Pairwise (fun a b => a ≤ b)
        ∧ (∀ n, n ∈ isolatedSorted m o ↔
            n ∈ allNodeNames m
              ∧ ¬ n ∈ connectedNodes (renderedEdgePairs m o)))
    ∧ (o.include_isolated_nodes = false →
        mermaidLines m o
          = ("graph " ++ pyUpperStr (pyStripStr o.direction))
              :: (renderedEdgePairs m o).map (edgeLine o)) := by
  have hne := renderedEdgePairs_ne_nil m o he
  have hie : (renderedEdgePairs m o).isEmpty = false := by
    rcases h : renderedEdgePairs m o with _ | ⟨e, es⟩
    · exact absurd h hne
    · rfl
  constructor
  · intro hinc
    refine ⟨?_, ?_, ?_⟩
    · simp [mermaidLines, hie, hinc]
    · rw [isolatedSorted, pySortedSet]
      exact pairwise_sortStrings _
    · intro n
      rw [isolatedSorted, mem_pySortedSet, List.mem_filter]
      constructor
      · rintro ⟨h1, h2⟩
        refine ⟨h1, fun hc => ?_⟩
        rw [Bool.not_eq_eq_eq_not, Bool.not_true] at h2
        have he2 : List.elem n (connectedNodes (renderedEdgePairs m o)) = true :=
          List.elem_iff.mpr hc
        exact Bool.noConfusion (he2.symm.trans h2)
      · rintro ⟨h1, h2⟩
        refine ⟨h1, ?_⟩
        rw [Bool.not_eq_eq_eq_not, Bool.not_true]
        rcases hc : (connectedNodes (renderedEdgePairs m o)).contains n with _ | _
        · rfl
        · exact absurd (List.elem_iff.mp hc) h2
  · intro hinc
    simp [mermaidLines, hie, hinc]

/-- C7, witness: for `{"a": ["b"], "isolated": []}` with defaults the lines
are the header, the edge line, then the isolated node line. -/
theorem c7_witness :
    mermaidLines [("a", ["b"]), ("isolated", [])] defaultOptions
      = ("graph " ++ pyUpperStr (pyStripStr defaultOptions.direction))
          :: ((renderedEdgePairs [("a", ["b"]), ("isolated", [])] defaultOptions).map
                (edgeLine defaultOptions)
              ++ (isolatedSorted [("a", ["b"]), ("isolated", [])] defaultOptions).map
                (nodeLine defaultOptions)) :=
  ((c7_isolated_nodes [("a", ["b"]), ("isolated", [])] defaultOptions
    (by decide)).1 rfl).1

/-! ## Idempotence of normalization on canonical identifiers -/

theorem plainChar_not_space {c : Char} (h : plainChar c = true) :
    pyIsSpace c = false := by
  rcases hf : pyIsSpace c with _ | _
  · rfl
  · exfalso
    have hc : c = ' ' ∨ c = '\t' ∨ c = '\n' ∨ c = '\r' ∨ c = '\x0b' ∨ c = '\x0c' := by
      simpa [pyIsSpace, Bool.or_eq_true, decide_eq_true_eq, or_assoc] using hf
    rcases hc with rfl | rfl | rfl | rfl | rfl | rfl <;> exact absurd h (by decide)

theorem plainChar_not_leadmark {c : Char} (h : plainChar c = true) :
    isLeadMark c = false := by
  rcases hf : isLeadMark c with _ | _
  · rfl
  · exfalso
    have hc : c = '`' ∨ c = '"' ∨ c = '[' := by
      simpa [isLeadMark, Bool.or_eq_true, decide_eq_true_eq, or_assoc] using hf
    rcases hc with rfl | rfl | rfl <;> exact absurd h (by decide)

theorem plainChar_not_trailmark {c : Char} (h : plainChar c = true) :
    isTrailMark c = false := by
  rcases hf : isTrailMark c with _ | _
  · rfl
  · exfalso
    have hc : c = '`' ∨ c = '"' ∨ c = ']' := by
      simpa [isTrailMark, Bool.or_eq_true, decide_eq_true_eq, or_assoc] using hf
    rcases hc with rfl | rfl | rfl <;> exact absurd h (by decide)

theorem plainChar_ne_dot {c : Char} (h : plainChar c = true) : c ≠ '.' := by
  rintro rfl
  exact absurd h (by decide)

theorem plainChar_ne_backtick {c : Char} (h : plainChar c = true) : c ≠ '`' := by
  rintro rfl
  exact absurd h (by decide)

theorem plainChar_ne_quote {c : Char} (h : plainChar c = true) : c ≠ '"' := by
  rintro rfl
  exact absurd h (by decide)

theorem dropWhile_eq_self_of (p : Char → Bool) (l : List Char)
    (h : ∀ c ∈ l, p c = false) : l.dropWhile p = l := by
  cases l with
  | nil => rfl
  | cons c rest =>
    rw [List.dropWhile_cons,
      if_neg (by rw [h c (List.mem_cons_self c rest)]; simp)]

theorem pyStripChars_eq_self (l : List Char) (h : ∀ c ∈ l, pyIsSpace c = false) :
    pyStripChars l = l := by
  rw [pyStripChars, dropWhile_eq_self_of _ _ h, dropWhile_eq_self_of, List.reverse_reverse]
  intro c hc
  exact h c (List.mem_reverse.mp hc)

theorem stripLeadMark_eq_self (l : List Char) (h : ∀ c ∈ l, isLeadMark c = false) :
    stripLeadMark l = l := by
  cases l with
  | nil => rfl
  | cons c rest =>
    rw [stripLeadMark,
      if_neg (by rw [h c (List.mem_cons_self c rest)]; simp)]

theorem stripTrailMark_eq_self (l : List Char) (h : ∀ c ∈ l, isTrailMark c = false) :
    stripTrailMark l = l := by
  rcases hr : l.reverse with _ | ⟨c, rest⟩
  · rw [List.reverse_eq_nil_iff] at hr
    rw [hr]
    rfl
  · have hc : c ∈ l := List.mem_reverse.mp (hr ▸ List.mem_cons_self c rest)
    rw [stripTrailMark, hr]
    show (if isTrailMark c = true then rest.reverse else l) = l
    rw [if_neg (by rw [h c hc]; simp)]

theorem collapseDoubled_eq_self (q : Char) :
    ∀ l : List Char, (∀ c ∈ l, c ≠ q) → collapseDoubled q l = l := by
  intro l
  induction l with
  | nil => intro h; rfl
  | cons c rest ih =>
    intro h
    cases rest with
    | nil => rfl
    | cons c2 rest2 =>
      rw [collapseDoubled,
        if_neg (fun hq => h c (List.mem_cons_self c _) hq.1),
        ih (fun a ha => h a (List.mem_cons_of_mem _ ha))]

theorem clean_chars_plain (l : List Char) (h : ∀ c ∈ l, plainChar c = true) :
    clean_chars l = l := by
  rw [clean_chars, pyStripChars_eq_self l (fun c hc => plainChar_not_space (h c hc)),
    stripLeadMark_eq_self l (fun c hc => plainChar_not_leadmark (h c hc)),
    stripTrailMark_eq_self l (fun c hc => plainChar_not_trailmark (h c hc)),
    collapseDoubled_eq_self '`' l (fun c hc => plainChar_ne_backtick (h c hc)),
    collapseDoubled_eq_self '"' l (fun c hc => plainChar_ne_quote (h c hc))]

theorem pySplit_no_sep (sep : Char) :
    ∀ l : List Char, (∀ c ∈ l, c ≠ sep) → pySplit sep l = [l] := by
  intro l
  induction l with
  | nil => intro h; rfl
  | cons c rest ih =>
    intro h
    rw [pySplit, if_neg (h c (List.mem_cons_self c rest)),
      ih (fun a ha => h a (List.mem_cons_of_mem _ ha))]

theorem pySplit_append (sep : Char) :
    ∀ a : List Char, ∀ b : List Char, (∀ c ∈ a, c ≠ sep) →
      pySplit sep (a ++ sep :: b) = a :: pySplit sep b := by
  intro a
  induction a with
  | nil =>
    intro b h
    rw [List.nil_append, pySplit, if_pos rfl]
  | cons c a2 ih =>
    intro b h
    rw [List.cons_append, pySplit, if_neg (h c (List.mem_cons_self c a2)),
      ih b (fun d hd => h d (List.mem_cons_of_mem _ hd))]

theorem plainIdent_chars {s : String} (h : plainIdent s = true) :
    s.data ≠ [] ∧ ∀ c ∈ s.data, plainChar c = true := by
  rw [plainIdent, Bool.and_eq_true] at h
  obtain ⟨h1, h2⟩ := h
  refine ⟨?_, List.all_eq_true.mp h2⟩
  intro hnil
  rw [hnil] at h1
  simp at h1

theorem string_ne_empty_of_data {s : String} (h : s.data ≠ []) : s ≠ "" := by
  intro he
  rw [he] at h
  exact h rfl

theorem data_append_dot (x y : String) :
    (x ++ "." ++ y).data = x.data ++ '.' :: y.data := by
  rw [String.data_append, String.data_append]
  simp

theorem normalize_table_name_eq (raw : String) (d : Option String) :
    normalize_table_name raw d
      = (if truthy (split_qualified raw).1
          then (split_qualified raw).1.getD "" ++ "." ++ (split_qualified raw).2
          else if truthy d then d.getD "" ++ "." ++ (split_qualified raw).2
          else (split_qualified raw).2) := rfl

theorem split_qualified_plain_qual (x y : String) (hx : plainIdent x = true)
    (hy : plainIdent y = true) :
    split_qualified (x ++ "." ++ y) = (some x, y) := by
  obtain ⟨hxe, hxc⟩ := plainIdent_chars hx
  obtain ⟨hye, hyc⟩ := plainIdent_chars hy
  have hns : ∀ c ∈ x.data ++ '.' :: y.data, pyIsSpace c = false := by
    intro c hc
    rcases List.mem_append.mp hc with hc | hc
    · exact plainChar_not_space (hxc c hc)
    · rcases List.mem_cons.mp hc with rfl | hc
      · rfl
      · exact plainChar_not_space (hyc c hc)
  rw [split_qualified, data_append_dot, pyStripChars_eq_self _ hns,
    pySplit_append '.' x.data y.data (fun c hc => plainChar_ne_dot (hxc c hc)),
    pySplit_no_sep '.' y.data (fun c hc => plainChar_ne_dot (hyc c hc))]
  show (some ⟨clean_chars x.data⟩, (⟨clean_chars y.data⟩ : String)) = (some x, y)
  rw [clean_chars_plain x.data hxc, clean_chars_plain y.data hyc]

theorem split_qualified_plain_bare (y : String) (hy : plainIdent y = true) :
    split_qualified y = (none, y) := by
  obtain ⟨hye, hyc⟩ := plainIdent_chars hy
  rw [split_qualified,
    pyStripChars_eq_self _ (fun c hc => plainChar_not_space (hyc c hc)),
    pySplit_no_sep '.' y.data (fun c hc => plainChar_ne_dot (hyc c hc))]
  show ((none : Option String), (⟨clean_chars y.data⟩ : String)) = (none, y)
  rw [clean_chars_plain y.data hyc]

theorem normalize_plain_qualified (x y : String) (hx : plainIdent x = true)
    (hy : plainIdent y = true) (d : Option String) :
    normalize_table_name (x ++ "." ++ y) d = x ++ "." ++ y := by
  rw [normalize_table_name_eq, split_qualified_plain_qual x y hx hy]
  have hxe := (plainIdent_chars hx).1
  have htr : truthy (some x) = true := by
    rw [truthy]
    simpa using string_ne_empty_of_data hxe
  rw [if_pos htr]
  rfl

/-- C6, amended: normalization is idempotent on canonical identifiers:
when `x`, `y` and the default schema (when present and nonempty) are plain
identifiers (letters, digits, underscore), both the qualified form `x.y`
and the bare form `y` normalize to a fixed point. In general idempotence
fails: a raw name with two or more separators plus a default schema gains
the schema prefix again on a second pass. -/
theorem c6_idempotent_on_canonical (x y : String) (d : Option String)
    (hx : plainIdent x = true) (hy : plainIdent y = true)
    (hd : ∀ s, d = some s → plainIdent s = true) :
    (normalize_table_name (normalize_table_name (x ++ "." ++ y) d) d
        = normalize_table_name (x ++ "." ++ y) d)
    ∧ (normalize_table_name (normalize_table_name y d) d
        = normalize_table_name y d) := by
  constructor
  · rw [normalize_plain_qualified x y hx hy d, normalize_plain_qualified x y hx hy d]
  · have hb : normalize_table_name y d
        = (if truthy d then d.getD "" ++ "." ++ y else y) := by
      rw [normalize_table_name_eq, split_qualified_plain_bare y hy]
      rfl
    rw [hb]
    cases d with
    | none =>
      rw [if_neg (by rw [truthy]; simp)]
      rw [hb]
      rw [if_neg (by rw [truthy]; simp)]
    | some s =>
      have hs := hd s rfl
      have hse := (plainIdent_chars hs).1
      have htr : truthy (some s) = true := by
        rw [truthy]
        simpa using string_ne_empty_of_data hse
      rw [if_pos htr]
      show normalize_table_name (s ++ "." ++ y) (some s) = s ++ "." ++ y
      exact normalize_plain_qualified s y hs hy (some s)

/-- C6, witness: with plain identifiers `db`, `t` and default schema `s`,
normalizing `db.t` and `t` is idempotent. -/
theorem c6_witness :
    normalize_table_name (normalize_table_name ("db" ++ "." ++ "t") (some "s")) (some "s")
      = normalize_table_name ("db" ++ "." ++ "t") (some "s") :=
  (c6_idempotent_on_canonical "db" "t" (some "s") (by decide) (by decide)
    (fun s h => by cases h; decide)).1

/-! ## `clean_ident`: one mark removed from each end, independently -/

theorem stripLeadMark_cons (c : Char) (l : List Char) (hc : isLeadMark c = true) :
    stripLeadMark (c :: l) = l := by
  rw [stripLeadMark, if_pos hc]

theorem stripTrailMark_concat (l : List Char) (c : Char) (hc : isTrailMark c = true) :
    stripTrailMark (l ++ [c]) = l := by
  have hrev : (l ++ [c]).reverse = c :: l.reverse := by simp
  rw [stripTrailMark, hrev]
  show (if isTrailMark c = true then l.reverse.reverse else l ++ [c]) = l
  rw [if_pos hc, List.reverse_reverse]

theorem collapseDoubled_cons_ne (q : Char) (l : List Char)
    (h : ∀ c ∈ l, c ≠ q) : collapseDoubled q (q :: l) = q :: l := by
  cases l with
  | nil => rfl
  | cons c2 rest =>
    rw [collapseDoubled, if_neg (fun hq => h c2 (List.mem_cons_self c2 rest) hq.2),
      collapseDoubled_eq_self q (c2 :: rest) h]

theorem collapseDoubled_concat_ne (q : Char) :
    ∀ l : List Char, (∀ c ∈ l, c ≠ q) →
      collapseDoubled q (l ++ [q]) = l ++ [q] := by
  intro l
  induction l with
  | nil => intro h; rfl
  | cons c rest ih =>
    intro h
    have hcq : c ≠ q := h c (List.mem_cons_self c rest)
    cases rest with
    | nil =>
      show collapseDoubled q [c, q] = [c, q]
      rw [collapseDoubled, if_neg (fun hq => hcq hq.1)]
      rfl
    | cons c2 rest2 =>
      have hrest := ih (fun a ha => h a (List.mem_cons_of_mem _ ha))
      rw [List.cons_append] at hrest
      show collapseDoubled q (c :: c2 :: (rest2 ++ [q])) = c :: c2 :: (rest2 ++ [q])
      rw [collapseDoubled, if_neg (fun hq => hcq hq.1), hrest]

theorem clean_chars_mismatched (w : List Char) (hw : ∀ c ∈ w, plainChar c = true) :
    clean_chars ('`' :: (w ++ ['"'])) = w := by
  have hns : ∀ c ∈ '`' :: (w ++ ['"']), pyIsSpace c = false := by
    intro c hc
    rcases List.mem_cons.mp hc with rfl | hc
    · rfl
    · rcases List.mem_append.mp hc with hc | hc
      · exact plainChar_not_space (hw c hc)
      · rcases List.mem_cons.mp hc with rfl | hc
        · rfl
        · cases hc
  rw [clean_chars, pyStripChars_eq_self _ hns,
    stripLeadMark_cons '`' (w ++ ['"']) (by decide),
    stripTrailMark_concat w '"' (by decide),
    collapseDoubled_eq_self '`' w (fun c hc => plainChar_ne_backtick (hw c hc)),
    collapseDoubled_eq_self '"' w (fun c hc => plainChar_ne_quote (hw c hc))]

theorem clean_chars_doubled (w : List Char) (hw : ∀ c ∈ w, plainChar c = true) :
    clean_chars ('`' :: ('`' :: (w ++ ['"', '"']))) = '`' :: (w ++ ['"']) := by
  have hns : ∀ c ∈ '`' :: ('`' :: (w ++ ['"', '"'])), pyIsSpace c = false := by
    intro c hc
    rcases List.mem_cons.mp hc with rfl | hc
    · rfl
    · rcases List.mem_cons.mp hc with rfl | hc
      · rfl
      · rcases List.mem_append.mp hc with hc | hc
        · exact plainChar_not_space (hw c hc)
        · rcases List.mem_cons.mp hc with rfl | hc
          · rfl
          · rcases List.mem_cons.mp hc with rfl | hc
            · rfl
            · cases hc
  have hq1 : ∀ c ∈ w ++ ['"'], c ≠ '`' := by
    intro c hc
    rcases List.mem_append.mp hc with hc | hc
    · exact plainChar_ne_backtick (hw c hc)
    · rcases List.mem_cons.mp hc with rfl | hc
      · decide
      · cases hc
  have hq2 : ∀ c ∈ '`' :: w, c ≠ '"' := by
    intro c hc
    rcases List.mem_cons.mp hc with rfl | hc
    · decide
    · exact plainChar_ne_quote (hw c hc)
  rw [clean_chars, pyStripChars_eq_self _ hns,
    stripLeadMark_cons '`' ('`' :: (w ++ ['"', '"'])) (by decide)]
  have hsh : '`' :: (w ++ ['"', '"']) = ('`' :: (w ++ ['"'])) ++ ['"'] := by simp
  rw [hsh, stripTrailMark_concat _ '"' (by decide),
    collapseDoubled_cons_ne '`' (w ++ ['"']) hq1]
  show collapseDoubled '"' (('`' :: w) ++ ['"']) = '`' :: (w ++ ['"'])
  rw [collapseDoubled_concat_ne '"' ('`' :: w) hq2]
  simp

/-- C10: `clean_ident` strips one leading and one trailing quoting mark
independently, so a mismatched pair is removed — a backtick, plain
identifier characters, then a double quote yields the bare identifier —
and at most one mark comes off each end in one application: doubling the
marks leaves one backtick and one quote in place. -/
theorem c10_clean_mismatched (w : String) (hw : ∀ c ∈ w.data, plainChar c = true) :
    clean_ident ("`" ++ w ++ "\"") = w
    ∧ clean_ident ("``" ++ w ++ "\"\"") = "`" ++ w ++ "\"" := by
  constructor
  · apply string_eq_of_data
    show clean_chars (("`" ++ w ++ "\"").data) = w.data
    have hd : ("`" ++ w ++ "\"").data = '`' :: (w.data ++ ['"']) := by
      rw [String.data_append, String.data_append]
      simp
    rw [hd, clean_chars_mismatched w.data hw]
  · apply string_eq_of_data
    show clean_chars (("``" ++ w ++ "\"\"").data) = ("`" ++ w ++ "\"").data
    have hd1 : ("``" ++ w ++ "\"\"").data = '`' :: ('`' :: (w.data ++ ['"', '"'])) := by
      rw [String.data_append, String.data_append]
      simp
    have hd2 : ("`" ++ w ++ "\"").data = '`' :: (w.data ++ ['"']) := by
      rw [String.data_append, String.data_append]
      simp
    rw [hd1, hd2, clean_chars_doubled w.data hw]

/-- C10, witness: a backtick, the letters `abc`, then a double quote clean
to the bare `abc`, and doubled marks lose exactly one mark per end. -/
theorem c10_witness :
    clean_ident ("`" ++ "abc" ++ "\"") = "abc"
    ∧ clean_ident ("``" ++ "abc" ++ "\"\"") = "`" ++ "abc" ++ "\"" :=
  c10_clean_mismatched "abc" (by decide)

/-! ## Exactly one trailing line terminator -/

theorem mem_of_getLast? {α : Type} :
    ∀ {l : List α} {c : α}, l.getLast? = some c → c ∈ l := by
  intro l
  induction l with
  | nil => intro c h; cases h
  | cons x xs ih =>
    intro c h
    cases xs with
    | nil =>
      rw [List.getLast?_singleton] at h
      rw [Option.some.injEq] at h
      rw [← h]
      exact List.mem_cons_self x []
    | cons y ys =>
      rw [List.getLast?_cons_cons] at h
      exact List.mem_cons_of_mem _ (ih h)

theorem getLast?_append_right {α : Type} {a b : List α} (hb : b ≠ []) :
    (a ++ b).getLast? = b.getLast? := by
  rw [List.getLast?_append]
  rcases hg : b.getLast? with _ | c
  · exact absurd (List.getLast?_eq_none_iff.mp hg) hb
  · rfl

theorem last_of_append_name (a n : String)
    (hne : n.data ≠ []) (hall : ∀ c ∈ n.data, allowedChar c = true) :
    (a ++ n).data ≠ [] ∧ (a ++ n).data.getLast? ≠ some '\n' := by
  rw [String.data_append]
  constructor
  · intro h
    exact hne (List.append_eq_nil.mp h).2
  · rw [getLast?_append_right hne]
    rcases hg : n.data.getLast? with _ | c
    · simp
    · have hc : c ∈ n.data := mem_of_getLast? hg
      have hca := hall c hc
      intro heq
      rw [Option.some.injEq] at heq
      rw [heq] at hca
      exact absurd hca (by decide)

theorem mem_renderedEdgePairs {m : List (String × List String)}
    {o : MermaidOptions} {e : String × String}
    (h : e ∈ renderedEdgePairs m o) : e ∈ edgesOf m := by
  rw [renderedEdgePairs] at h
  by_cases hd : o.dedupe_edges = true
  · rw [hd, if_pos rfl, dedupeFirst] at h
    exact ((mem_dedupeGo (edgesOf m) [] e).mp h).1
  · rw [if_neg hd] at h
    exact h

theorem edgesOf_mem_names {m : List (String × List String)} {e : String × String}
    (h : e ∈ edgesOf m) : e.1 ∈ allNodeNames m ∧ e.2 ∈ allNodeNames m := by
  rw [edgesOf, List.mem_flatMap] at h
  obtain ⟨p, hp, he⟩ := h
  rw [List.mem_map] at he
  obtain ⟨d, hd, heq⟩ := he
  subst heq
  constructor
  · rw [allNodeNames, List.mem_flatMap]
    exact ⟨p, hp, List.mem_cons_of_mem _ hd⟩
  · rw [allNodeNames, List.mem_flatMap]
    exact ⟨p, hp, List.mem_cons_self _ _⟩

theorem isolatedSorted_subset_names {m : List (String × List String)}
    {o : MermaidOptions} {n : String} (h : n ∈ isolatedSorted m o) :
    n ∈ allNodeNames m := by
  rw [isolatedSorted, mem_pySortedSet] at h
  exact (List.mem_filter.mp h).1

theorem mermaidLines_last_ok (m : List (String × List String)) (o : MermaidOptions)
    (hdir : pyUpperStr (pyStripStr o.direction) ∈ dirsList)
    (hnames : ∀ n ∈ allNodeNames m, n.data ≠ [] ∧ ∀ c ∈ n.data, allowedChar c = true) :
    ∀ l ∈ mermaidLines m o, l.data ≠ [] ∧ l.data.getLast? ≠ some '\n' := by
  have hnode : ∀ n, n ∈ allNodeNames m →
      (nodeLine o n).data ≠ [] ∧ (nodeLine o n).data.getLast? ≠ some '\n' := by
    intro n hn
    exact last_of_append_name o.indent n (hnames n hn).1 (hnames n hn).2
  have hedge : ∀ e ∈ renderedEdgePairs m o,
      (edgeLine o e).data ≠ [] ∧ (edgeLine o e).data.getLast? ≠ some '\n' := by
    intro e he
    have hn := (edgesOf_mem_names (mem_renderedEdgePairs he)).2
    exact last_of_append_name (o.indent ++ e.1 ++ " -.-> ") e.2
      (hnames e.2 hn).1 (hnames e.2 hn).2
  intro l hl
  rw [mermaidLines] at hl
  rcases List.mem_cons.mp hl with rfl | hl
  · simp only [dirsList, List.mem_cons, List.not_mem_nil, or_false] at hdir
    rcases hdir with h | h | h | h <;> rw [h] <;> exact (by decide)
  · rcases List.mem_append.mp hl with hl | hl
    · by_cases hie : (renderedEdgePairs m o).isEmpty = true
      · rw [if_pos hie] at hl
        by_cases hinc : o.include_isolated_nodes = true
        · rw [if_pos hinc] at hl
          rw [List.mem_map] at hl
          obtain ⟨n, hn, rfl⟩ := hl
          exact hnode n ((mem_pySortedSet n (allNodeNames m)).mp hn)
        · rw [if_neg hinc] at hl
          cases hl
      · rw [if_neg hie] at hl
        rw [List.mem_map] at hl
        obtain ⟨e, he, rfl⟩ := hl
        exact hedge e he
    · by_cases hb : (o.include_isolated_nodes && !(renderedEdgePairs m o).isEmpty) = true
      · rw [if_pos hb] at hl
        rw [List.mem_map] at hl
        obtain ⟨n, hn, rfl⟩ := hl
        exact hnode n (isolatedSorted_subset_names hn)
      · rw [if_neg hb] at hl
        cases hl

theorem nlJoin_getLast_ne :
    ∀ L : List (List Char), L ≠ [] →
      (∀ l ∈ L, l ≠ [] ∧ l.getLast? ≠ some '\n') →
      (nlJoin L).getLast? ≠ some '\n' := by
  intro L
  induction L with
  | nil => intro h; exact absurd rfl h
  | cons l L2 ih =>
    intro _ hall
    cases L2 with
    | nil => exact (hall l (List.mem_cons_self l [])).2
    | cons l2 L3 =>
      show (l ++ '\n' :: nlJoin (l2 :: L3)).getLast? ≠ some '\n'
      have hj : nlJoin (l2 :: L3) ≠ [] := by
        have hl2 : l2 ≠ [] :=
          (hall l2 (List.mem_cons_of_mem _ (List.mem_cons_self l2 L3))).1
        cases L3 with
        | nil => exact hl2
        | cons l3 L4 =>
          show l2 ++ '\n' :: nlJoin (l3 :: L4) ≠ []
          simp
      have hih : (nlJoin (l2 :: L3)).getLast? ≠ some '\n' := by
        apply ih (by simp)
        intro a ha
        exact hall a (List.mem_cons_of_mem _ ha)
      rcases hx : nlJoin (l2 :: L3) with _ | ⟨x, xs⟩
      · exact absurd hx hj
      · rw [hx] at hih
        rw [getLast?_append_right (by simp : ('\n' :: x :: xs : List Char) ≠ [])]
        rw [List.getLast?_cons_cons]
        exact hih

/-- C8, amended: for every input mapping all of whose node names consist
solely of allowed characters (so no name carries the trailing newline that
validation also tolerates) and every options value whose normalized
direction is valid, the returned string ends with exactly one line
terminator: its last character is a newline and the character before it is
not. -/
theorem c8_single_terminator (m : List (String × List String)) (o : MermaidOptions)
    (hdir : pyUpperStr (pyStripStr o.direction) ∈ dirsList)
    (hnames : ∀ n ∈ allNodeNames m, n.data ≠ [] ∧ ∀ c ∈ n.data, allowedChar c = true) :
    ∃ s, json_to_mermaid m o = Except.ok s
      ∧ s.data.getLast? = some '\n'
      ∧ s.data.dropLast.getLast? ≠ some '\n' := by
  have hfb : firstBadName m = none := by
    rw [firstBadName, List.find?_eq_none]
    intro n hn
    have hok : reMatchAllowed n = true :=
      (reMatchAllowed_iff n).mpr (Or.inl (hnames n hn))
    simp [hok]
  refine ⟨joinLines (mermaidLines m o) ++ "\n", deps_output_shape m o hdir hfb, ?_, ?_⟩
  · rw [String.data_append]
    show (nlJoin ((mermaidLines m o).map String.data) ++ ['\n']).getLast? = some '\n'
    exact List.getLast?_concat _
  · rw [String.data_append]
    show ((nlJoin ((mermaidLines m o).map String.data) ++ ['\n']).dropLast).getLast?
        ≠ some '\n'
    rw [List.dropLast_concat]
    apply nlJoin_getLast_ne
    · obtain ⟨tl, htl⟩ :
        ∃ tl, mermaidLines m o
          = ("graph " ++ pyUpperStr (pyStripStr o.direction)) :: tl := ⟨_, rfl⟩
      rw [htl]
      simp
    · intro l hl
      rw [List.mem_map] at hl
      obtain ⟨line, hline, rfl⟩ := hl
      exact mermaidLines_last_ok m o hdir hnames line hline

/-- C8, witness: for `{"a": ["b"]}` with default options the output exists
and ends with exactly one newline. -/
theorem c8_witness :
    ∃ s, json_to_mermaid [("a", ["b"])] defaultOptions = Except.ok s
      ∧ s.data.getLast? = some '\n'
      ∧ s.data.dropLast.getLast? ≠ some '\n' :=
  c8_single_terminator [("a", ["b"])] defaultOptions (by decide) (by decide)
